import Mathlib

/-!
Verification development for the `eng_pdf_crawling` repository
(source file `eng_pdf_info_crawling.py`).

The development shallowly embeds the pure content of the crawler:

* the nested result dictionaries (`JVal`) and `merge_results`;
* the PDF sentence-extraction pipeline of `extract_sentences_from_pdf`
  (quote normalization, Hangul removal, sentence splitting, per-candidate
  trimming / colon truncation / length filter / allow-list filter);
* the per-sentence retry loop of `process_sentence` and the per-document
  and whole-run drivers `process_pdf` / `process_all_pdfs`, with the
  remote search UI abstracted as a stubbed schedule of query outcomes
  (the spec's "SearchSession stub") and file IO / PyPDF2 abstracted as a
  fallible extraction function.

Strings are modelled as Lean `String` / `List Char`; Python dicts as
ordered association structures (`JVal`), matching Python's insertion-order
semantics (updating an existing key keeps its position, a new key is
appended at the end).
-/

namespace Crawl

/-- A Python JSON-like value as used by the crawler's result maps: either a
string leaf or a dict, encoded as an ordered list of key/value entries
(`nil` is the empty dict `{}`, `cons k v rest` is a dict whose first entry
is `k : v`). Python dicts have unique keys; that invariant is carried as a
hypothesis (`keys`-`Nodup`) where proofs need it. -/
inductive JVal where
  | str : String → JVal
  | nil : JVal
  | cons : String → JVal → JVal → JVal
deriving DecidableEq, Repr

/-- `isinstance(v, dict)` for `JVal`. -/
def JVal.isObj : JVal → Bool
  | .str _ => false
  | .nil => true
  | .cons _ _ _ => true

/-- `d[k]` / `k in d` combined: first entry with key `k`, if any.
On a string leaf there are no entries. -/
def lookup : JVal → String → Option JVal
  | .str _, _ => none
  | .nil, _ => none
  | .cons k v rest, key => if k = key then some v else lookup rest key

/-- `d[k] = v` on a dict: overwrite in place if the key exists (keeping its
position), otherwise append a new entry at the end — Python dict insertion
semantics. On a string leaf it is the identity (the source never assigns
into a non-dict; such an attempt raises and the surrounding handler drops
the update). -/
def setKey : JVal → String → JVal → JVal
  | .str s, _, _ => .str s
  | .nil, key, val => .cons key val .nil
  | .cons k v rest, key, val =>
      if k = key then .cons k val rest else .cons k v (setKey rest key val)

/-- The ordered key list of a dict. -/
def keys : JVal → List String
  | .cons k _ rest => k :: keys rest
  | _ => []

/-- Embedding of `merge_results(dict1, dict2)` (source lines 211–221):
for each entry `key : value` of `dict2` in order, if `key` is present in
`dict1` and both `dict1[key]` and `value` are dicts, recursively merge
`value` into `dict1[key]`; otherwise `dict1[key] = value`. Returns the
updated first dict (the source mutates `dict1` in place and returns it).
A non-dict second argument has no entries to iterate, leaving `dict1`
unchanged (the source is only ever called with dicts). -/
def merge_results : JVal → JVal → JVal
  | d1, JVal.str _ => d1
  | d1, JVal.nil => d1
  | d1, JVal.cons key value rest =>
      let upd :=
        match lookup d1 key with
        | some m1 =>
            if m1.isObj && value.isObj then setKey d1 key (merge_results m1 value)
            else setKey d1 key value
        | none => setKey d1 key value
      merge_results upd rest

/-- The encoding invariant of a Python dict value: built from `nil`/`cons`
with dict tails (a `str` can appear only as an entry's value, not as the
spine). Every dict reachable from the source program satisfies this. -/
def isDict : JVal → Bool
  | .str _ => false
  | .nil => true
  | .cons _ _ rest => isDict rest

lemma isObj_of_isDict {d : JVal} (h : isDict d = true) : d.isObj = true := by
  cases d with
  | str s => simp [isDict] at h
  | nil => rfl
  | cons k v rest => rfl

lemma isDict_setKey (d : JVal) (k : String) (v : JVal) :
    isDict (setKey d k v) = isDict d := by
  induction d with
  | str s => rfl
  | nil => rfl
  | cons k0 v0 rest ihv ihr =>
      simp only [setKey]
      by_cases hk : k0 = k
      · simp [hk, isDict]
      · simp [hk, isDict, ihr]

lemma lookup_setKey_self (d : JVal) (k : String) (v : JVal)
    (h : isDict d = true) : lookup (setKey d k v) k = some v := by
  induction d with
  | str s => simp [isDict] at h
  | nil => simp [setKey, lookup]
  | cons k0 v0 rest ihv ihr =>
      simp only [isDict] at h
      by_cases hk : k0 = k
      · simp [setKey, hk, lookup]
      · simp only [setKey, if_neg hk, lookup, if_neg hk]
        exact ihr h

lemma lookup_setKey_ne (d : JVal) (k k' : String) (v : JVal)
    (h : k' ≠ k) : lookup (setKey d k v) k' = lookup d k' := by
  induction d with
  | str s => rfl
  | nil =>
      simp only [setKey, lookup]
      rw [if_neg (Ne.symm h)]
  | cons k0 v0 rest ihv ihr =>
      simp only [setKey]
      by_cases hk : k0 = k
      · subst hk
        simp only [lookup]
        rw [if_neg (Ne.symm h), if_neg (Ne.symm h)]
      · simp only [if_neg hk, lookup]
        by_cases hk' : k0 = k'
        · simp [hk']
        · simp [hk', ihr]

lemma lookup_eq_none_of_not_mem_keys (d : JVal) (k : String)
    (h : k ∉ keys d) : lookup d k = none := by
  induction d with
  | str s => rfl
  | nil => rfl
  | cons k0 v0 rest ihv ihr =>
      simp only [keys, List.mem_cons, not_or] at h
      simp only [lookup]
      rw [if_neg (Ne.symm h.1)]
      exact ihr h.2

/-- Pointwise characterization of `merge_results` on dicts with duplicate-free
keys (always true of Python dicts): at each key, if only one side has an
entry, that entry survives; if both do and both values are dicts, the values
are merged recursively; otherwise the incoming (second) value overwrites. -/
lemma lookup_merge (d2 d1 : JVal) (h1 : isDict d1 = true)
    (h2 : (keys d2).Nodup) (k : String) :
    lookup (merge_results d1 d2) k =
      match lookup d1 k, lookup d2 k with
      | v1?, none => v1?
      | some v1, some v2 =>
          if v1.isObj && v2.isObj then some (merge_results v1 v2) else some v2
      | none, some v2 => some v2 := by
  induction d2 generalizing d1 with
  | str s => simp [merge_results, lookup]
  | nil => simp [merge_results, lookup]
  | cons key value rest ihv ihr =>
      simp only [keys, List.nodup_cons] at h2
      obtain ⟨hnotin, hrest⟩ := h2
      have step :
          merge_results d1 (JVal.cons key value rest) =
            merge_results
              (match lookup d1 key with
               | some m1 =>
                   if m1.isObj && value.isObj then
                     setKey d1 key (merge_results m1 value)
                   else setKey d1 key value
               | none => setKey d1 key value) rest := rfl
      set upd :=
        (match lookup d1 key with
         | some m1 =>
             if m1.isObj && value.isObj then
               setKey d1 key (merge_results m1 value)
             else setKey d1 key value
         | none => setKey d1 key value) with hupd
      have hupdDict : isDict upd = true := by
        rw [hupd]
        cases hl : lookup d1 key with
        | none => rw [isDict_setKey]; exact h1
        | some m1 =>
            dsimp only
            split <;> (rw [isDict_setKey]; exact h1)
      rw [step, ihr upd hupdDict hrest]
      by_cases hk : key = k
      · subst hk
        have hrestk : lookup rest key = none :=
          lookup_eq_none_of_not_mem_keys rest key hnotin
        have hupdk : lookup upd key =
            (match lookup d1 key with
             | some m1 =>
                 if m1.isObj && value.isObj then
                   some (merge_results m1 value)
                 else some value
             | none => some value) := by
          rw [hupd]
          cases hl : lookup d1 key with
          | none => exact lookup_setKey_self d1 key value h1
          | some m1 =>
              dsimp only
              split
              · rw [lookup_setKey_self _ _ _ h1]
              · rw [lookup_setKey_self _ _ _ h1]
        rw [hupdk, hrestk]
        have hd2k : lookup (JVal.cons key value rest) key = some value := by
          simp [lookup]
        rw [hd2k]
        cases hl : lookup d1 key with
        | none => rfl
        | some m1 =>
            by_cases hobj : (m1.isObj && value.isObj) = true
            · simp only [hobj, if_true]
            · simp only [hobj, if_false]
      · have hupdk : lookup upd k = lookup d1 k := by
          rw [hupd]
          cases hl : lookup d1 key with
          | none => exact lookup_setKey_ne d1 key k value (fun h => hk h.symm)
          | some m1 =>
              dsimp only
              split
              · exact lookup_setKey_ne _ _ _ _ (fun h => hk h.symm)
              · exact lookup_setKey_ne _ _ _ _ (fun h => hk h.symm)
        have hd2k : lookup (JVal.cons key value rest) k = lookup rest k := by
          simp only [lookup]
          rw [if_neg hk]
        rw [hupdk, hd2k]

/-- Well-formedness at depth `n`: `wf 0` is a string leaf, `wf (n+1)` a
dict (on the `nil`/`cons` spine) whose values are well-formed at depth `n`
and whose keys are duplicate-free. `wf 3` is the crawler's three-level
`ResultMap` shape (key1 → key2 → key3 → passage text). -/
def wf : Nat → JVal → Bool
  | 0, .str _ => true
  | 0, .nil => false
  | 0, .cons _ _ _ => false
  | _ + 1, .str _ => false
  | _ + 1, .nil => true
  | n + 1, .cons k v rest => wf n v && wf (n + 1) rest && !((keys rest).contains k)

lemma isDict_of_wf {n : Nat} {d : JVal} (h : wf (n + 1) d = true) :
    isDict d = true := by
  induction d with
  | str s => simp [wf] at h
  | nil => rfl
  | cons k v rest ihv ihr =>
      simp only [wf, Bool.and_eq_true] at h
      simp only [isDict]
      exact ihr h.1.2

lemma nodup_keys_of_wf {n : Nat} {d : JVal} (h : wf (n + 1) d = true) :
    (keys d).Nodup := by
  induction d with
  | str s => simp [wf] at h
  | nil => simp [keys]
  | cons k v rest ihv ihr =>
      simp only [wf, Bool.and_eq_true, Bool.not_eq_true'] at h
      obtain ⟨⟨hv, hr⟩, hc⟩ := h
      simp only [keys, List.nodup_cons]
      refine ⟨fun hmem => ?_, ihr hr⟩
      simp [List.contains_eq_any_beq] at hc
      exact absurd hmem hc

lemma wf_lookup {n : Nat} {d v : JVal} {k : String}
    (h : wf (n + 1) d = true) (hl : lookup d k = some v) : wf n v = true := by
  induction d with
  | str s => simp [lookup] at hl
  | nil => simp [lookup] at hl
  | cons k0 v0 rest ihv ihr =>
      simp only [wf, Bool.and_eq_true] at h
      simp only [lookup] at hl
      by_cases hk : k0 = k
      · rw [if_pos hk] at hl
        cases hl
        exact h.1.1
      · rw [if_neg hk] at hl
        exact ihr h.1.2 hl

/-- `lookup3 d k1 k2 k3` follows the three-level key path
`d[k1][k2][k3]` of a `ResultMap`. -/
def lookup3 (d : JVal) (k1 k2 k3 : String) : Option JVal :=
  match lookup d k1 with
  | some m1 =>
      match lookup m1 k2 with
      | some m2 => lookup m2 k3
      | none => none
  | none => none

/-- The concrete partial `{"A": {"B": {"1": "x"}}}`. -/
def exA1 : JVal := .cons "A" (.cons "B" (.cons "1" (.str "x") .nil) .nil) .nil

/-- The concrete partial `{"A": {"B": {"1": "y"}}}`. -/
def exA2 : JVal := .cons "A" (.cons "B" (.cons "1" (.str "y") .nil) .nil) .nil

/-- The concrete partial `{"A": {"C": {"2": "y"}}}`. -/
def exA3 : JVal := .cons "A" (.cons "C" (.cons "2" (.str "y") .nil) .nil) .nil

/-- `{"A": {"B": {"1": "x"}, "C": {"2": "y"}}}` — the structural union. -/
def exA4 : JVal :=
  .cons "A"
    (.cons "B" (.cons "1" (.str "x") .nil)
      (.cons "C" (.cons "2" (.str "y") .nil) .nil)) .nil

/-- C7: `merge_results` performs a recursive deep-merge of the second map
into the first: at every key where both sides hold nested dicts it recurses,
otherwise the incoming value overwrites the aggregate's. Consequently
merging `{"A":{"B":{"1":"x"}}}` then `{"A":{"B":{"1":"y"}}}` yields leaf
`"y"` (last-merged-wins), and merging `{"A":{"B":{"1":"x"}}}` with
`{"A":{"C":{"2":"y"}}}` yields both nested subtrees under `"A"`. -/
theorem merge_results_deep_merge :
    (∀ (d1 d2 : JVal) (k : String), isDict d1 = true → (keys d2).Nodup →
      lookup (merge_results d1 d2) k =
        match lookup d1 k, lookup d2 k with
        | v1?, none => v1?
        | some v1, some v2 =>
            if v1.isObj && v2.isObj then some (merge_results v1 v2)
            else some v2
        | none, some v2 => some v2)
    ∧ merge_results exA1 exA2 = exA2
    ∧ merge_results exA1 exA3 = exA4 :=
  ⟨fun d1 d2 k h1 h2 => lookup_merge d2 d1 h1 h2 k, by decide, by decide⟩

/-- Witness for C7: the characterization instantiated at the concrete
structural-union example, with all hypotheses discharged. -/
theorem merge_results_deep_merge_witness :
    lookup (merge_results exA1 exA3) "A" =
      some (merge_results
        (JVal.cons "B" (JVal.cons "1" (JVal.str "x") JVal.nil) JVal.nil)
        (JVal.cons "C" (JVal.cons "2" (JVal.str "y") JVal.nil) JVal.nil)) := by
  have h := merge_results_deep_merge.1 exA1 exA3 "A" (by decide) (by decide)
  rw [h]
  decide

/-- C10: on well-formed three-level maps, merging never removes an existing
key path: every path present in the first argument before the merge is still
present afterwards (merging only adds keys or overwrites leaf values). The
source returns its first argument updated (mutated in place in Python). -/
theorem merge_results_preserves_paths (d1 d2 : JVal) (k1 k2 k3 : String)
    (v : JVal) (h1 : wf 3 d1 = true) (h2 : wf 3 d2 = true)
    (hp : lookup3 d1 k1 k2 k3 = some v) :
    ∃ w, lookup3 (merge_results d1 d2) k1 k2 k3 = some w := by
  -- unpack the three-level path in d1
  unfold lookup3 at hp
  cases hm1 : lookup d1 k1 with
  | none => rw [hm1] at hp; simp at hp
  | some m1 =>
  rw [hm1] at hp
  simp only at hp
  cases hm2 : lookup m1 k2 with
  | none => rw [hm2] at hp; simp at hp
  | some m2 =>
  rw [hm2] at hp
  simp only at hp
  -- level-1 characterization
  have hchar1 := lookup_merge d2 d1 (isDict_of_wf h1) (nodup_keys_of_wf h2) k1
  have hwm1 : wf 2 m1 = true := wf_lookup h1 hm1
  have hwm2 : wf 1 m2 = true := wf_lookup hwm1 hm2
  cases hd2 : lookup d2 k1 with
  | none =>
      rw [hm1, hd2] at hchar1
      simp only at hchar1
      refine ⟨v, ?_⟩
      unfold lookup3
      rw [hchar1]
      simp only
      rw [hm2]
      simp only
      exact hp
  | some n1 =>
      have hwn1 : wf 2 n1 = true := wf_lookup h2 hd2
      rw [hm1, hd2] at hchar1
      simp only [isObj_of_isDict (isDict_of_wf hwm1),
        isObj_of_isDict (isDict_of_wf hwn1), Bool.and_self, if_true] at hchar1
      -- level-2 characterization inside the merged value
      have hchar2 :=
        lookup_merge n1 m1 (isDict_of_wf hwm1) (nodup_keys_of_wf hwn1) k2
      cases hn2 : lookup n1 k2 with
      | none =>
          rw [hm2, hn2] at hchar2
          simp only at hchar2
          refine ⟨v, ?_⟩
          unfold lookup3
          rw [hchar1]
          simp only
          rw [hchar2]
          simp only
          exact hp
      | some n2 =>
          have hwn2 : wf 1 n2 = true := wf_lookup hwn1 hn2
          rw [hm2, hn2] at hchar2
          simp only [isObj_of_isDict (isDict_of_wf hwm2),
            isObj_of_isDict (isDict_of_wf hwn2), Bool.and_self,
            if_true] at hchar2
          -- level-3 characterization
          have hchar3 :=
            lookup_merge n2 m2 (isDict_of_wf hwm2) (nodup_keys_of_wf hwn2) k3
          cases hn3 : lookup n2 k3 with
          | none =>
              rw [hp, hn3] at hchar3
              simp only at hchar3
              refine ⟨v, ?_⟩
              unfold lookup3
              rw [hchar1]
              simp only
              rw [hchar2]
              simp only
              exact hchar3
          | some s2 =>
              rw [hp, hn3] at hchar3
              simp only at hchar3
              by_cases hobj : (v.isObj && s2.isObj) = true
              · rw [if_pos hobj] at hchar3
                refine ⟨merge_results v s2, ?_⟩
                unfold lookup3
                rw [hchar1]
                simp only
                rw [hchar2]
                simp only
                exact hchar3
              · rw [if_neg hobj] at hchar3
                refine ⟨s2, ?_⟩
                unfold lookup3
                rw [hchar1]
                simp only
                rw [hchar2]
                simp only
                exact hchar3

/-- Witness for C10: the path `"A" → "B" → "1"` of `{"A":{"B":{"1":"x"}}}`
is still present after merging `{"A":{"C":{"2":"y"}}}` into it. -/
theorem merge_results_preserves_paths_witness :
    ∃ w, lookup3 (merge_results exA1 exA3) "A" "B" "1" = some w :=
  merge_results_preserves_paths exA1 exA3 "A" "B" "1" (JVal.str "x")
    (by decide) (by decide) (by decide)

/-! ## Sentence extraction (`extract_sentences_from_pdf`, lines 171–208) -/

/-- Python regex `\s` whitespace (ASCII range; all characters the pipeline
keeps are ASCII, so wider Unicode whitespace never occurs in the claims). -/
def isSpace (c : Char) : Bool :=
  c == ' ' || c == '\t' || c == '\n' || c == '\r' || c == '\x0b' || c == '\x0c'

/-- A sentence-splitting delimiter character of
`re.split(r"[\.!?\n]+\s*", text)` (line 194). -/
def isDelim (c : Char) : Bool :=
  c == '.' || c == '!' || c == '?' || c == '\n'

/-- One character of the allow-list `^[A-Za-z\s\.\,\':"]+$` (line 180):
Latin letters (codepoints 0x41–0x5A, 0x61–0x7A), whitespace, and the five
punctuation marks period, comma, apostrophe, colon, double quote. -/
def isAllowed (c : Char) : Bool :=
  (0x41 ≤ c.toNat && c.toNat ≤ 0x5A) || (0x61 ≤ c.toNat && c.toNat ≤ 0x7A) ||
  isSpace c || c == '.' || c == ',' || c == '\'' || c == ':' || c == '"'

/-- Curly-quote normalization (lines 187–192). -/
def normQuote (c : Char) : Char :=
  if c = '‘' then '\'' else if c = '’' then '\''
  else if c = '“' then '"' else if c = '”' then '"' else c

/-- A character removed by `re.sub(r"[ㄱ-ㅎ가-힣]+", "", text)` (line 193):
Hangul compatibility jamo (U+3131–U+314E) or syllables (U+AC00–U+D7A3).
Removing maximal runs of such characters equals removing each of them. -/
def isKorean (c : Char) : Bool :=
  (0x3131 ≤ c.toNat && c.toNat ≤ 0x314E) ||
  (0xAC00 ≤ c.toNat && c.toNat ≤ 0xD7A3)

/-- Scanner state for the splitter: `tok` = reading a piece, `delim` =
inside the greedy `[.!?\n]+` run, `ws` = inside the following greedy
`\s*` run. -/
inductive SplitMode where
  | tok | delim | ws
deriving DecidableEq, Repr

/-- `re.split(r"[\.!?\n]+\s*", text)` (line 194): each match is a maximal
run of delimiter characters followed by a maximal run of whitespace; the
pieces between matches are returned, including an empty piece between
adjacent matches and at either end. The current piece is accumulated
reversed in `acc` (empty while in `delim`/`ws`). -/
def splitAux : List Char → List Char → SplitMode → List (List Char)
  | [], acc, _ => [acc.reverse]
  | c :: cs, acc, SplitMode.tok =>
      if isDelim c then acc.reverse :: splitAux cs [] SplitMode.delim
      else splitAux cs (c :: acc) SplitMode.tok
  | c :: cs, acc, SplitMode.delim =>
      if isDelim c then splitAux cs acc SplitMode.delim
      else if isSpace c then splitAux cs acc SplitMode.ws
      else splitAux cs [c] SplitMode.tok
  | c :: cs, acc, SplitMode.ws =>
      if isSpace c then splitAux cs acc SplitMode.ws
      else if isDelim c then acc.reverse :: splitAux cs [] SplitMode.delim
      else splitAux cs [c] SplitMode.tok

/-- `re.split(r"[\.!?\n]+\s*", text)`. -/
def splitSentences (text : List Char) : List (List Char) :=
  splitAux text [] SplitMode.tok

/-- Leading-whitespace removal. -/
def ltrim (s : List Char) : List Char := s.dropWhile isSpace

/-- Trailing-whitespace removal. -/
def rtrim (s : List Char) : List Char := (ltrim s.reverse).reverse

/-- Python `str.strip()` (ASCII whitespace, see `isSpace`). -/
def strip (s : List Char) : List Char := rtrim (ltrim s)

/-- `s.split(":", 1)[1]`: everything after the first colon. -/
def afterColon : List Char → List Char
  | [] => []
  | c :: cs => if c = ':' then cs else afterColon cs

/-- Lines 198–199: if the candidate contains a colon, keep only the part
after the first colon, stripped. -/
def colonStep (s : List Char) : List Char :=
  if s.contains ':' then strip (afterColon s) else s

/-- `s.count(" ")`: number of literal space characters. -/
def countSpaces (s : List Char) : Nat := s.count ' '

/-- Lines 200–203: drop the candidate if it is empty or contains at most
three spaces; keep it if every character matches the allow-list
(`fullmatch` of a nonempty pattern); silently skip it otherwise. -/
def keepCandidate (s : List Char) : Option (List Char) :=
  if s.isEmpty || countSpaces s ≤ 3 then none
  else if s.all isAllowed then some s else none

/-- Lines 196–203: per-candidate processing — strip, colon-truncate,
length/allow-list filter. -/
def processCandidate (s : List Char) : Option (List Char) :=
  keepCandidate (colonStep (strip s))

/-- Lines 187–204: the per-page text pipeline of
`extract_sentences_from_pdf` — normalize curly quotes, delete Hangul
characters, split into candidate sentences, process each candidate. -/
def processText (text : List Char) : List (List Char) :=
  (splitSentences ((text.map normQuote).filter (fun c => !isKorean c))).filterMap
    processCandidate

/-- Lines 179–208 over the extracted page texts of one document (a page
whose `extract_text()` yields no text is skipped). -/
def extract_sentences_from_pdf : List (List Char) → List (List Char)
  | [] => []
  | t :: ps =>
      (if t.isEmpty then [] else processText t) ++ extract_sentences_from_pdf ps

/-- Re-joining a sentence sequence into a single raw text, one sentence per
line (used to state the idempotence claim about running the pipeline on its
own output). -/
def joinNl : List (List Char) → List Char
  | [] => []
  | [s] => s
  | s :: rest => s ++ '\n' :: joinNl rest

lemma mem_ltrim {c : Char} {s : List Char} (h : c ∈ ltrim s) : c ∈ s := by
  induction s with
  | nil => exact absurd h (by simp [ltrim])
  | cons c0 cs ih =>
      unfold ltrim at h
      rw [List.dropWhile_cons] at h
      by_cases hsp : isSpace c0 = true
      · rw [if_pos hsp] at h
        exact List.mem_cons_of_mem c0 (ih h)
      · rw [if_neg hsp] at h
        exact h

lemma mem_rtrim {c : Char} {s : List Char} (h : c ∈ rtrim s) : c ∈ s := by
  unfold rtrim at h
  rw [List.mem_reverse] at h
  exact List.mem_reverse.mp (mem_ltrim h)

lemma mem_strip {c : Char} {s : List Char} (h : c ∈ strip s) : c ∈ s :=
  mem_ltrim (mem_rtrim h)

lemma mem_afterColon {c : Char} {s : List Char} (h : c ∈ afterColon s) :
    c ∈ s := by
  induction s with
  | nil => exact absurd h (by simp [afterColon])
  | cons c0 cs ih =>
      unfold afterColon at h
      by_cases hcol : c0 = ':'
      · rw [if_pos hcol] at h
        exact List.mem_cons_of_mem c0 h
      · rw [if_neg hcol] at h
        exact List.mem_cons_of_mem c0 (ih h)

lemma mem_colonStep {c : Char} {s : List Char} (h : c ∈ colonStep s) :
    c ∈ s := by
  unfold colonStep at h
  by_cases hc : s.contains ':' = true
  · rw [if_pos hc] at h
    exact mem_afterColon (mem_strip h)
  · rw [if_neg hc] at h
    exact h

lemma processCandidate_eq_some {cand s : List Char}
    (h : processCandidate cand = some s) :
    s = colonStep (strip cand) ∧ s.isEmpty = false ∧ 3 < countSpaces s ∧
      s.all isAllowed = true := by
  unfold processCandidate keepCandidate at h
  by_cases h1 : ((colonStep (strip cand)).isEmpty ||
      countSpaces (colonStep (strip cand)) ≤ 3 : Bool) = true
  · rw [if_pos h1] at h
    exact absurd h (by simp)
  · rw [if_neg h1] at h
    by_cases h2 : (colonStep (strip cand)).all isAllowed = true
    · rw [if_pos h2] at h
      simp only [Bool.or_eq_true, decide_eq_true_eq, not_or,
        Bool.not_eq_true] at h1
      cases h
      refine ⟨rfl, h1.1, ?_, h2⟩
      have := h1.2
      omega
    · rw [if_neg h2] at h
      exact absurd h (by simp)

lemma mem_processText {t s : List Char} (h : s ∈ processText t) :
    ∃ cand ∈ splitSentences ((t.map normQuote).filter (fun c => !isKorean c)),
      processCandidate cand = some s := by
  unfold processText at h
  exact List.mem_filterMap.mp h

lemma mem_extract_sentences {pages : List (List Char)} {s : List Char}
    (h : s ∈ extract_sentences_from_pdf pages) :
    ∃ t ∈ pages, s ∈ processText t := by
  induction pages with
  | nil => exact absurd h (by simp [extract_sentences_from_pdf])
  | cons t ps ih =>
      unfold extract_sentences_from_pdf at h
      rw [List.mem_append] at h
      cases h with
      | inl h =>
          by_cases ht : t.isEmpty = true
          · rw [if_pos ht] at h
            exact absurd h (by simp)
          · rw [if_neg ht] at h
            exact ⟨t, List.mem_cons_self t ps, h⟩
      | inr h =>
          obtain ⟨t0, ht0, hs0⟩ := ih h
          exact ⟨t0, List.mem_cons_of_mem t ht0, hs0⟩

/-- C4: every sentence emitted by `extract_sentences_from_pdf` consists only
of characters in the allow-list `{A–Z, a–z, whitespace, period, comma,
apostrophe, double quote, colon}`. -/
theorem extract_sentences_allowlist (pages : List (List Char))
    (s : List Char) (c : Char) (hs : s ∈ extract_sentences_from_pdf pages)
    (hc : c ∈ s) : isAllowed c = true := by
  obtain ⟨t, _, hmem⟩ := mem_extract_sentences hs
  obtain ⟨cand, _, hsome⟩ := mem_processText hmem
  obtain ⟨_, _, _, hall⟩ := processCandidate_eq_some hsome
  exact List.all_eq_true.mp hall c hc

/-- Witness for C4: a concrete page yields the sentence
`"The cat sat on the mat"` whose first character is allowed. -/
theorem extract_sentences_allowlist_witness :
    isAllowed 'T' = true :=
  extract_sentences_allowlist ["The cat sat on the mat.".data]
    "The cat sat on the mat".data 'T' (by decide) (by decide)

lemma splitAux_no_delim (cs : List Char) (acc : List Char) (m : SplitMode)
    (hacc : ∀ c ∈ acc, isDelim c = false) :
    ∀ s ∈ splitAux cs acc m, ∀ c ∈ s, isDelim c = false := by
  induction cs generalizing acc m with
  | nil =>
      intro s hs c hc
      unfold splitAux at hs
      simp only [List.mem_singleton] at hs
      subst hs
      exact hacc c (List.mem_reverse.mp hc)
  | cons c0 cs0 ih =>
      intro s hs c hc
      cases m with
      | tok =>
          unfold splitAux at hs
          by_cases hd : isDelim c0 = true
          · rw [if_pos hd] at hs
            rcases List.mem_cons.mp hs with h | h
            · subst h
              exact hacc c (List.mem_reverse.mp hc)
            · exact ih [] SplitMode.delim (by simp) s h c hc
          · rw [if_neg hd] at hs
            refine ih (c0 :: acc) SplitMode.tok ?_ s hs c hc
            intro x hx
            rcases List.mem_cons.mp hx with h | h
            · subst h; simpa using hd
            · exact hacc x h
      | delim =>
          unfold splitAux at hs
          by_cases hd : isDelim c0 = true
          · rw [if_pos hd] at hs
            exact ih acc SplitMode.delim hacc s hs c hc
          · rw [if_neg hd] at hs
            by_cases hsp : isSpace c0 = true
            · rw [if_pos hsp] at hs
              exact ih acc SplitMode.ws hacc s hs c hc
            · rw [if_neg hsp] at hs
              refine ih [c0] SplitMode.tok ?_ s hs c hc
              intro x hx
              rcases List.mem_singleton.mp hx with h
              subst h; simpa using hd
      | ws =>
          unfold splitAux at hs
          by_cases hsp : isSpace c0 = true
          · rw [if_pos hsp] at hs
            exact ih acc SplitMode.ws hacc s hs c hc
          · rw [if_neg hsp] at hs
            by_cases hd : isDelim c0 = true
            · rw [if_pos hd] at hs
              rcases List.mem_cons.mp hs with h | h
              · subst h
                exact hacc c (List.mem_reverse.mp hc)
              · exact ih [] SplitMode.delim (by simp) s h c hc
            · rw [if_neg hd] at hs
              refine ih [c0] SplitMode.tok ?_ s hs c hc
              intro x hx
              rcases List.mem_singleton.mp hx with h
              subst h; simpa using hd

/-- C9: no sentence emitted by `extract_sentences_from_pdf` contains a
period, exclamation mark, question mark, or newline — the splitter consumes
all of them as delimiters, and the later steps only select substrings. -/
theorem extract_sentences_no_terminators (pages : List (List Char))
    (s : List Char) (c : Char) (hs : s ∈ extract_sentences_from_pdf pages)
    (hc : c ∈ s) : c ≠ '.' ∧ c ≠ '!' ∧ c ≠ '?' ∧ c ≠ '\n' := by
  obtain ⟨t, _, hmem⟩ := mem_extract_sentences hs
  obtain ⟨cand, hcand, hsome⟩ := mem_processText hmem
  obtain ⟨hform, _, _, _⟩ := processCandidate_eq_some hsome
  have hnd : isDelim c = false := by
    refine splitAux_no_delim _ [] SplitMode.tok (by simp) cand hcand c ?_
    subst hform
    exact mem_strip (mem_colonStep hc)
  unfold isDelim at hnd
  simp only [Bool.or_eq_false_iff, beq_eq_false_iff_ne, ne_eq] at hnd
  exact ⟨hnd.1.1.1, hnd.1.1.2, hnd.1.2, hnd.2⟩

/-- Witness for C9: the concrete emitted sentence
`"The cat sat on the mat"` starts with a `'T'`, which is none of the four
consumed terminator characters. -/
theorem extract_sentences_no_terminators_witness :
    'T' ≠ '.' ∧ 'T' ≠ '!' ∧ 'T' ≠ '?' ∧ 'T' ≠ '\n' :=
  extract_sentences_no_terminators ["The cat sat on the mat.".data]
    "The cat sat on the mat".data 'T' (by decide) (by decide)

lemma afterColon_append (a b : List Char) (ha : ':' ∉ a) :
    afterColon (a ++ ':' :: b) = b := by
  induction a with
  | nil => simp [afterColon]
  | cons c0 cs ih =>
      simp only [List.mem_cons, not_or] at ha
      simp only [List.cons_append, afterColon]
      rw [if_neg (fun h => ha.1 h.symm)]
      exact ih ha.2

/-- C5: on a candidate that contains a colon, the pipeline's colon step
retains exactly the stripped substring after the first colon. -/
theorem colonStep_first_colon (s a b : List Char) (hs : s = a ++ ':' :: b)
    (ha : ':' ∉ a) : colonStep s = strip b := by
  subst hs
  have hcontains : (a ++ ':' :: b).contains ':' = true := by
    simp [List.contains_eq_any_beq]
  unfold colonStep
  rw [if_pos hcontains, afterColon_append a b ha]

/-- Witness for C5 (the claim's concrete example): the candidate
`"Q: The cat sat."` is truncated to `"The cat sat."`. -/
theorem colonStep_first_colon_witness :
    colonStep "Q: The cat sat.".data = "The cat sat.".data :=
  (colonStep_first_colon "Q: The cat sat.".data "Q".data
      " The cat sat.".data (by decide) (by decide)).trans (by decide)

/-- C6: the minimum-length filter of lines 200–203: a trimmed,
colon-truncated candidate is dropped when empty or containing at most three
space characters, and kept (given it passes the allow-list) when it
contains four or more space characters. -/
theorem keepCandidate_min_length (s : List Char) :
    ((s = [] ∨ countSpaces s ≤ 3) → keepCandidate s = none) ∧
    (4 ≤ countSpaces s → s.all isAllowed = true → keepCandidate s = some s) := by
  constructor
  · intro h
    unfold keepCandidate
    rw [if_pos]
    rcases h with h | h
    · subst h; simp
    · simp [h]
  · intro h4 hall
    unfold keepCandidate
    rw [if_neg, if_pos hall]
    simp only [Bool.or_eq_true, decide_eq_true_eq, not_or, Bool.not_eq_true]
    constructor
    · cases s with
      | nil => simp [countSpaces] at h4
      | cons c cs => simp
    · omega

/-- Witness for C6: `"Hi there."` (two spaces at most — here one) is
dropped; `"The cat sat on the mat."` (five spaces) is kept. -/
theorem keepCandidate_min_length_witness :
    keepCandidate "Hi there.".data = none ∧
    keepCandidate "The cat sat on the mat.".data =
      some "The cat sat on the mat.".data :=
  ⟨(keepCandidate_min_length "Hi there.".data).1 (Or.inr (by decide)),
   (keepCandidate_min_length "The cat sat on the mat.".data).2
     (by decide) (by decide)⟩

/-! ### Facts about `strip` needed for the idempotence claim -/

lemma ltrim_eq_self {s : List Char}
    (h : ∀ c t, s = c :: t → isSpace c = false) : ltrim s = s := by
  cases s with
  | nil => rfl
  | cons c t =>
      unfold ltrim
      rw [List.dropWhile_cons, if_neg]
      simp [h c t rfl]

lemma strip_eq_self {s : List Char}
    (hhead : ∀ c t, s = c :: t → isSpace c = false)
    (hlast : ∀ c t, s.reverse = c :: t → isSpace c = false) :
    strip s = s := by
  unfold strip rtrim
  rw [ltrim_eq_self hhead, ltrim_eq_self ?_, List.reverse_reverse]
  exact hlast

lemma dropWhile_head_false {p : Char → Bool} {l : List Char} {c : Char}
    {t : List Char} (h : l.dropWhile p = c :: t) : p c = false := by
  have := List.head_dropWhile_not p l
  rw [h] at this
  simpa using this

lemma rtrim_prefix (m : List Char) :
    m = rtrim m ++ (m.reverse.takeWhile isSpace).reverse := by
  have h := List.takeWhile_append_dropWhile (p := isSpace) (l := m.reverse)
  calc m = m.reverse.reverse := (List.reverse_reverse m).symm
    _ = (m.reverse.takeWhile isSpace ++ m.reverse.dropWhile isSpace).reverse := by
        rw [h]
    _ = (m.reverse.dropWhile isSpace).reverse ++
          (m.reverse.takeWhile isSpace).reverse := by
        rw [List.reverse_append]
    _ = rtrim m ++ (m.reverse.takeWhile isSpace).reverse := rfl

lemma strip_head_not_space {z : List Char} {c : Char} {t : List Char}
    (h : strip z = c :: t) : isSpace c = false := by
  have hpre := rtrim_prefix (ltrim z)
  unfold strip at h
  rw [h] at hpre
  have : ltrim z = c :: (t ++ ((ltrim z).reverse.takeWhile isSpace).reverse) := by
    simpa using hpre
  exact dropWhile_head_false (p := isSpace) this

lemma strip_reverse_head_not_space {z : List Char} {c : Char} {t : List Char}
    (h : (strip z).reverse = c :: t) : isSpace c = false := by
  unfold strip rtrim at h
  rw [List.reverse_reverse] at h
  exact dropWhile_head_false (p := isSpace) h

lemma strip_strip (z : List Char) : strip (strip z) = strip z := by
  refine strip_eq_self ?_ ?_
  · intro c t h
    exact strip_head_not_space h
  · intro c t h
    exact strip_reverse_head_not_space h

/-! ### Splitting a newline-join of delimiter-free sentences -/

lemma splitAux_tok_append (s : List Char) (rest acc : List Char)
    (h : ∀ c ∈ s, isDelim c = false) :
    splitAux (s ++ rest) acc SplitMode.tok =
      splitAux rest (s.reverse ++ acc) SplitMode.tok := by
  induction s generalizing acc with
  | nil => simp
  | cons c cs ih =>
      have hc : isDelim c = false := h c (List.mem_cons_self c cs)
      simp only [List.cons_append, splitAux, hc, Bool.false_eq_true,
        if_false]
      refine (ih (c :: acc)
        (fun x hx => h x (List.mem_cons_of_mem c hx))).trans ?_
      simp [List.append_assoc]

lemma splitAux_delim_start (c : Char) (cs : List Char)
    (hd : isDelim c = false) (hsp : isSpace c = false) :
    splitAux (c :: cs) [] SplitMode.delim =
      splitAux (c :: cs) [] SplitMode.tok := by
  simp only [splitAux, hd, hsp, Bool.false_eq_true, if_false]

lemma joinNl_cons_of_ne_nil (s : List Char) (ss : List (List Char))
    (h : ss ≠ []) : joinNl (s :: ss) = s ++ '\n' :: joinNl ss := by
  cases ss with
  | nil => exact absurd rfl h
  | cons a b => rfl

lemma joinNl_head (c : Char) (t : List Char) (tl : List (List Char)) :
    ∃ r, joinNl ((c :: t) :: tl) = c :: r := by
  cases tl with
  | nil => exact ⟨t, rfl⟩
  | cons a b => exact ⟨t ++ '\n' :: joinNl (a :: b), rfl⟩

lemma splitSentences_joinNl (ss : List (List Char)) (hne : ss ≠ [])
    (h : ∀ s ∈ ss, s ≠ [] ∧ (∀ c ∈ s, isDelim c = false) ∧
      (∀ c t, s = c :: t → isSpace c = false)) :
    splitSentences (joinNl ss) = ss := by
  induction ss with
  | nil => exact absurd rfl hne
  | cons s tl ih =>
      obtain ⟨hs_ne, hs_nd, hs_hd⟩ := h s (List.mem_cons_self s tl)
      cases tl with
      | nil =>
          show splitAux (joinNl [s]) [] SplitMode.tok = [s]
          have : joinNl [s] = s ++ [] := by simp [joinNl]
          rw [this, splitAux_tok_append s [] [] hs_nd]
          simp [splitAux]
      | cons s1 tl1 =>
          rw [joinNl_cons_of_ne_nil s (s1 :: tl1) (by simp)]
          show splitAux (s ++ '\n' :: joinNl (s1 :: tl1)) [] SplitMode.tok =
            s :: s1 :: tl1
          rw [splitAux_tok_append s _ [] hs_nd]
          have hnl : isDelim '\n' = true := by decide
          simp only [List.append_nil, splitAux, hnl, if_true,
        List.reverse_reverse]
          -- the tail starts with the head character of s1
          obtain ⟨hs1_ne, hs1_nd, hs1_hd⟩ :=
            h s1 (List.mem_cons_of_mem s (List.mem_cons_self s1 tl1))
          cases s1 with
          | nil => exact absurd rfl hs1_ne
          | cons c1 t1 =>
              obtain ⟨r, hr⟩ := joinNl_head c1 t1 tl1
              rw [hr, splitAux_delim_start c1 r
                (hs1_nd c1 (List.mem_cons_self c1 t1))
                (hs1_hd c1 t1 rfl), ← hr]
              have hrec := ih (by simp)
                (fun x hx => h x (List.mem_cons_of_mem s hx))
              unfold splitSentences at hrec
              rw [hrec]

/-! ### Character-level identity facts on allow-listed text -/

lemma normQuote_of_allowed {c : Char} (h : isAllowed c = true) :
    normQuote c = c := by
  have h1 : c ≠ '‘' := by rintro rfl; exact absurd h (by decide)
  have h2 : c ≠ '’' := by rintro rfl; exact absurd h (by decide)
  have h3 : c ≠ '“' := by rintro rfl; exact absurd h (by decide)
  have h4 : c ≠ '”' := by rintro rfl; exact absurd h (by decide)
  simp [normQuote, h1, h2, h3, h4]

lemma isKorean_of_allowed {c : Char} (h : isAllowed c = true) :
    isKorean c = false := by
  have hb : c.toNat ≤ 0x7A := by
    unfold isAllowed isSpace at h
    simp only [Bool.or_eq_true, Bool.and_eq_true, decide_eq_true_eq,
      beq_iff_eq] at h
    rcases h with ((((((⟨h1, h2⟩ | ⟨h1, h2⟩) |
        (((((h | h) | h) | h) | h) | h)) | h) | h) | h) | h) | h <;>
      first
        | omega
        | (subst h; decide)
  unfold isKorean
  simp only [Bool.or_eq_false_iff, Bool.and_eq_false_iff]
  constructor
  · left
    simpa using by omega
  · left
    simpa using by omega

lemma mem_joinNl {c : Char} {ss : List (List Char)} (h : c ∈ joinNl ss) :
    c = '\n' ∨ ∃ s ∈ ss, c ∈ s := by
  induction ss with
  | nil => simp [joinNl] at h
  | cons s tl ih =>
      cases tl with
      | nil =>
          right
          exact ⟨s, by simp, by simpa [joinNl] using h⟩
      | cons a b =>
          rw [joinNl_cons_of_ne_nil s (a :: b) (by simp)] at h
          rcases List.mem_append.mp h with h | h
          · right; exact ⟨s, List.mem_cons_self s _, h⟩
          · rcases List.mem_cons.mp h with h | h
            · left; exact h
            · rcases ih h with h | ⟨s0, hs0, hc0⟩
              · left; exact h
              · right; exact ⟨s0, List.mem_cons_of_mem _ hs0, hc0⟩

lemma map_id_of_fixed {f : Char → Char} (l : List Char)
    (h : ∀ c ∈ l, f c = c) : l.map f = l := by
  induction l with
  | nil => rfl
  | cons c cs ih =>
      rw [List.map_cons, h c (List.mem_cons_self c cs),
        ih (fun x hx => h x (List.mem_cons_of_mem c hx))]

lemma filter_id_of_true {p : Char → Bool} (l : List Char)
    (h : ∀ c ∈ l, p c = true) : l.filter p = l := by
  induction l with
  | nil => rfl
  | cons c cs ih =>
      rw [List.filter_cons, if_pos (h c (List.mem_cons_self c cs)),
        ih (fun x hx => h x (List.mem_cons_of_mem c hx))]

lemma contains_eq_false_of_not_mem {c : Char} {s : List Char}
    (h : c ∉ s) : s.contains c = false := by
  cases hc : s.contains c with
  | false => rfl
  | true =>
      simp [List.contains_eq_any_beq] at hc
      exact absurd hc h

/-! ### Shape facts about emitted sentences -/

lemma filterMap_id_of_some {f : List Char → Option (List Char)}
    (l : List (List Char)) (h : ∀ s ∈ l, f s = some s) :
    l.filterMap f = l := by
  induction l with
  | nil => rfl
  | cons a tl ih =>
      rw [List.filterMap_cons, h a (List.mem_cons_self a tl)]
      simp only
      rw [ih (fun s hs => h s (List.mem_cons_of_mem a hs))]

lemma colonStep_strip_form (x : List Char) :
    ∃ z, colonStep (strip x) = strip z := by
  unfold colonStep
  by_cases h : (strip x).contains ':' = true
  · rw [if_pos h]
    exact ⟨afterColon (strip x), rfl⟩
  · rw [if_neg h]
    exact ⟨x, rfl⟩

lemma processText_emitted {t s : List Char} (h : s ∈ processText t) :
    (∃ z, s = strip z) ∧ s ≠ [] ∧ 3 < countSpaces s ∧
      s.all isAllowed = true ∧ ∀ c ∈ s, isDelim c = false := by
  obtain ⟨cand, hcand, hsome⟩ := mem_processText h
  obtain ⟨hform, hne, hcount, hall⟩ := processCandidate_eq_some hsome
  have hnd : ∀ c ∈ s, isDelim c = false := by
    intro c hc
    refine splitAux_no_delim _ [] SplitMode.tok (by simp) cand hcand c ?_
    rw [hform] at hc
    exact mem_strip (mem_colonStep hc)
  refine ⟨?_, ?_, hcount, hall, hnd⟩
  · obtain ⟨z, hz⟩ := colonStep_strip_form cand
    exact ⟨z, hform.trans hz⟩
  · simpa using hne

/-- C3 counterexample: at the raw text
`"x: y: one two three four five six"` the pipeline emits
`["y: one two three four five six"]`, but re-running the pipeline on the
re-joined output truncates after the surviving colon again and yields
`["one two three four five six"]`. -/
theorem processText_not_idempotent :
    processText (joinNl
        (processText "x: y: one two three four five six".data)) ≠
      processText "x: y: one two three four five six".data := by
  decide

/-- C3 amended: the pipeline is idempotent on its own output whenever no
emitted sentence still contains a colon (the colon-truncation step is the
only non-idempotent stage): re-running the pipeline on the re-joined
sentence sequence reproduces the same sequence. -/
theorem processText_idempotent_no_colon (t : List Char)
    (hnc : ∀ s ∈ processText t, (':' : Char) ∉ s) :
    processText (joinNl (processText t)) = processText t := by
  cases hss : processText t with
  | nil => rfl
  | cons s0 tl =>
      have hfacts : ∀ s ∈ s0 :: tl,
          (∃ z, s = strip z) ∧ s ≠ [] ∧ 3 < countSpaces s ∧
            s.all isAllowed = true ∧ ∀ c ∈ s, isDelim c = false := by
        intro s hs
        exact processText_emitted (t := t) (hss ▸ hs)
      have hnc2 : ∀ s ∈ s0 :: tl, (':' : Char) ∉ s := by
        intro s hs
        exact hnc s (hss ▸ hs)
      unfold processText
      have hid : ((joinNl (s0 :: tl)).map normQuote).filter
          (fun c => !isKorean c) = joinNl (s0 :: tl) := by
        have hchars : ∀ c ∈ joinNl (s0 :: tl), isAllowed c = true ∨ c = '\n' := by
          intro c hc
          rcases mem_joinNl hc with h | ⟨s, hs, hcs⟩
          · right; exact h
          · left
            exact List.all_eq_true.mp (hfacts s hs).2.2.2.1 c hcs
        rw [map_id_of_fixed _ ?_, filter_id_of_true _ ?_]
        · intro c hc
          rcases hchars c hc with h | h
          · simp [isKorean_of_allowed h]
          · subst h; decide
        · intro c hc
          rcases hchars c hc with h | h
          · exact normQuote_of_allowed h
          · subst h; decide
      rw [hid]
      have hsplit : splitSentences (joinNl (s0 :: tl)) = s0 :: tl := by
        refine splitSentences_joinNl (s0 :: tl) (by simp) ?_
        intro s hs
        obtain ⟨⟨z, hz⟩, hne, _, _, hnd⟩ := hfacts s hs
        refine ⟨hne, hnd, ?_⟩
        intro c t2 heq
        exact strip_head_not_space (z := z) (hz ▸ heq)
      rw [show splitSentences (joinNl (s0 :: tl)) = s0 :: tl from hsplit]
      -- each emitted sentence passes the candidate processing unchanged
      have hkeep : ∀ s ∈ s0 :: tl, processCandidate s = some s := by
        intro s hs
        obtain ⟨⟨z, hz⟩, hne, hcount, hall, _⟩ := hfacts s hs
        have hstrip : strip s = s := by rw [hz]; exact strip_strip z
        have hcontains : s.contains ':' = false :=
          contains_eq_false_of_not_mem (hnc2 s hs)
        have hcol : colonStep s = s := by
          unfold colonStep
          refine if_neg (fun hc => hnc2 s hs ?_)
          simpa [List.contains_eq_any_beq] using hc
        unfold processCandidate keepCandidate
        rw [hstrip, hcol, if_neg, if_pos hall]
        simp only [Bool.or_eq_true, decide_eq_true_eq, not_or,
          Bool.not_eq_true]
        constructor
        · cases s with
          | nil => exact absurd rfl hne
          | cons c cs => simp
        · omega
      exact filterMap_id_of_some _ hkeep

/-- Witness for the amended C3: a concrete raw text whose single emitted
sentence contains no colon, on which the pipeline is idempotent. -/
theorem processText_idempotent_no_colon_witness :
    processText (joinNl (processText "The cat sat on the mat.".data)) =
      processText "The cat sat on the mat.".data :=
  processText_idempotent_no_colon "The cat sat on the mat.".data (by decide)

/-! ## The per-sentence search loop (`process_sentence`, lines 58–168) and
the document / run drivers (`process_pdf` lines 224–247,
`process_all_pdfs` lines 250–265).

The remote search UI is abstracted as a schedule of query outcomes (the
spec's "SearchSession stub"): the i-th query attempt of a sentence either
reaches a result page (with the echoed confirmation text and the list of
result blocks the page holds), or raises a transport exception. Session
teardown (`safe_quit`) and restart (`init_driver`) are modelled as always
succeeding, as the claims under scrutiny concern query outcomes. -/

/-- One result table of the result page, modelled post-regex: `info` is the
comma-split field list of the matched group of
`교과서명,\s*레슨,\s*본문번호\s*:\s*([^\n\r]+)` applied to the
`지문출처` cell (`none` when the row is missing or the pattern does not
match — both are caught and logged in the source, lines 161–164), and
`english` is the text of the `영어 지문` cell (`none` when that row is
missing — caught and logged, lines 157–158). -/
structure ResultBlock where
  info : Option (List String)
  english : Option String
deriving DecidableEq, Repr

/-- Outcome of one query attempt as served by the stubbed remote UI:
either a result page is reached (echoed confirmation text plus result
blocks), or some step of the attempt raises (`TimeoutFault`,
`ConnectionFault`, …). -/
inductive QueryOutcome where
  | pageBlocks : String → List ResultBlock → QueryOutcome
  | fault : String → QueryOutcome
deriving DecidableEq, Repr

/-- One per-sentence error record of `process_pdf` (lines 237–241). -/
structure ErrorEntry where
  pdf_file : String
  search_term : String
  error : String
deriving DecidableEq, Repr

/-- `max_attempts = 3` (line 67). -/
def max_attempts : Nat := 3

/-- Python `str.strip()` on a `String`. -/
def stripS (s : String) : String := String.mk (strip s.data)

/-- Lines 152–156: `data[key1][key2][key3] = english_text` with the two
`if keyX not in …` dict initializations; an assignment through an existing
non-dict value raises `TypeError`, which the surrounding handler catches,
leaving `data` unchanged. -/
def insertRecord (data : JVal) (k1 k2 k3 txt : String) : JVal :=
  let d := if lookup data k1 = none then setKey data k1 JVal.nil else data
  match lookup d k1 with
  | some m1 =>
      if m1.isObj then
        let m1a := if lookup m1 k2 = none then setKey m1 k2 JVal.nil else m1
        match lookup m1a k2 with
        | some m2 =>
            if m2.isObj then
              setKey d k1 (setKey m1a k2 (setKey m2 k3 (JVal.str txt)))
            else d
        | none => d
      else d
  | none => d

/-- Lines 129–164: processing of one result table — needs a parsed
provenance list of at least three fields (`len(extracted_info) >= 3`) and
an English-passage cell; each field is stripped; failures are logged and
skip the table. -/
def processTable (data : JVal) (b : ResultBlock) : JVal :=
  match b.info with
  | some (f1 :: f2 :: f3 :: _) =>
      match b.english with
      | some txt => insertRecord data (stripS f1) (stripS f2) (stripS f3) txt
      | none => data
  | _ => data

/-- Lines 70–118: the retry loop of `process_sentence`. `schedule i` is the
outcome of the i-th query; `queries` counts queries made so far;
`remaining` is `max_attempts - attempt`. A result page whose echoed text
equals the sentence breaks out of the loop with that page's blocks
(line 105); a mismatch (lines 106–112) or an exception (lines 113–118)
quits the session, restarts a fresh one, and retries. When the attempt
counter reaches `max_attempts` the loop exits with the freshly restarted
session, whose blank page holds no result blocks. Returns the number of
queries made and the blocks of the page the driver is left on. -/
def searchLoop (schedule : Nat → QueryOutcome) (sentence : String)
    (queries : Nat) : Nat → Nat × List ResultBlock
  | 0 => (queries, [])
  | remaining + 1 =>
      match schedule queries with
      | QueryOutcome.pageBlocks echoed blocks =>
          if echoed = sentence then (queries + 1, blocks)
          else searchLoop schedule sentence (queries + 1) remaining
      | QueryOutcome.fault _ => searchLoop schedule sentence (queries + 1) remaining

/-- Lines 58–168: `process_sentence` — run the retry loop, then extract the
tables of the page the driver is left on (lines 120–166; an empty list
returns immediately, line 126–128) and fold each table into `data`. All
exceptions of the extraction phase are caught inside the function
(lines 157–166), so it returns normally; it records no error entries
itself. Returns the updated data and the number of queries made. -/
def process_sentence (schedule : Nat → QueryOutcome) (sentence : String)
    (data : JVal) : JVal × Nat :=
  let r := searchLoop schedule sentence 0 max_attempts
  (r.2.foldl processTable data, r.1)

/-- Lines 229–245: the sentence loop of `process_pdf` — data starts `{}`,
the error log starts `[]`, and an `ErrorEntry` is appended only when
`process_sentence` raises (line 236–242). With session restarts modelled as
succeeding, `process_sentence` always returns normally, so the error log
can only stay empty. `schedule s` is the stubbed outcome schedule used for
sentence `s`. -/
def sentenceLoop (schedule : String → Nat → QueryOutcome)
    (sentences : List String) : JVal × List ErrorEntry :=
  sentences.foldl
    (fun acc s => ((process_sentence (schedule s) s acc.1).1, acc.2))
    (JVal.nil, [])

/-- Lines 224–247: `process_pdf` — `extract` abstracts
`extract_sentences_from_pdf` over the file system (`Except.error` is an
exception raised while opening/parsing the PDF). The call is *outside* any
`try`, so an extraction exception propagates out of `process_pdf`. -/
def process_pdf (extract : String → Except String (List String))
    (schedule : String → Nat → QueryOutcome) (path : String) :
    Except String (JVal × List ErrorEntry) :=
  match extract path with
  | Except.error e => Except.error e
  | Except.ok sentences => Except.ok (sentenceLoop schedule sentences)

/-- Lines 250–265: `process_all_pdfs` — `Pool.map` re-raises the exception
of any worker in the parent, so one failing document aborts the whole run
before any merging; otherwise the per-document results are deep-merged and
the error lists concatenated. -/
def process_all_pdfs (extract : String → Except String (List String))
    (schedule : String → Nat → QueryOutcome) (pdf_files : List String) :
    Except String (JVal × List ErrorEntry) :=
  match pdf_files.mapM (process_pdf extract schedule) with
  | Except.error e => Except.error e
  | Except.ok rs =>
      Except.ok (rs.foldl
        (fun acc r => (merge_results acc.1 r.1, acc.2 ++ r.2)) (JVal.nil, []))

lemma searchLoop_all_fail (schedule : Nat → QueryOutcome) (sentence : String)
    (hfail : ∀ i echoed blocks,
      schedule i = QueryOutcome.pageBlocks echoed blocks → echoed ≠ sentence) :
    ∀ remaining queries,
      searchLoop schedule sentence queries remaining =
        (queries + remaining, []) := by
  intro remaining
  induction remaining with
  | zero => intro queries; rfl
  | succ n ih =>
      intro queries
      unfold searchLoop
      cases hq : schedule queries with
      | pageBlocks echoed blocks =>
          simp only
          rw [if_neg (hfail queries echoed blocks hq), ih (queries + 1)]
          have harith : queries + 1 + n = queries + (n + 1) := by omega
          rw [harith]
      | fault msg =>
          simp only
          rw [ih (queries + 1)]
          have harith : queries + 1 + n = queries + (n + 1) := by omega
          rw [harith]

lemma sentenceLoop_errors (schedule : String → Nat → QueryOutcome)
    (sentences : List String) : (sentenceLoop schedule sentences).2 = [] := by
  unfold sentenceLoop
  suffices h : ∀ (acc : JVal × List ErrorEntry),
      (sentences.foldl
        (fun acc s => ((process_sentence (schedule s) s acc.1).1, acc.2))
        acc).2 = acc.2 by
    exact h (JVal.nil, [])
  induction sentences with
  | nil => intro acc; rfl
  | cons s tl ih =>
      intro acc
      rw [List.foldl_cons, ih]

/-- C1 counterexample: with a stub whose every query mismatches (empty
echoed text), processing the sentence `"The cat sat on the mat"` through
the per-document loop records zero `ErrorEntry`s — not exactly one as the
claim states. -/
theorem process_sentence_exhausted_error_count :
    (sentenceLoop (fun _ _ => QueryOutcome.pageBlocks "" [])
        ["The cat sat on the mat"]).2.length ≠ 1 := by
  decide

/-- C1 (amended): for a sentence whose every query attempt yields a
mismatch or a fault, the retry loop of `process_sentence` makes exactly
`max_attempts` (3) query attempts, then falls through to result extraction
on the freshly restarted session whose blank page holds no result blocks —
so no `MatchRecord` is emitted and the caller's result map is unchanged —
`process_sentence` returns normally (does not throw to `process_pdf`), and
*no* `ErrorEntry` is recorded: the only `ErrorEntry` writer is the
exception handler of `process_pdf`, which never fires. -/
theorem process_sentence_exhausted (schedule : Nat → QueryOutcome)
    (sentence : String) (data : JVal)
    (hfail : ∀ i echoed blocks,
      schedule i = QueryOutcome.pageBlocks echoed blocks → echoed ≠ sentence) :
    process_sentence schedule sentence data = (data, 3) ∧
    (sentenceLoop (fun _ => schedule) [sentence]).2 = [] := by
  constructor
  · unfold process_sentence
    rw [searchLoop_all_fail schedule sentence hfail max_attempts 0]
    rfl
  · exact sentenceLoop_errors (fun _ => schedule) [sentence]

/-- Witness for the amended C1: the always-mismatching stub at a concrete
sentence and a concrete nonempty result map. -/
theorem process_sentence_exhausted_witness :
    process_sentence (fun _ => QueryOutcome.pageBlocks "" [])
        "The cat sat on the mat" exA1 = (exA1, 3) ∧
    (sentenceLoop (fun _ _ => QueryOutcome.pageBlocks "" [])
        ["The cat sat on the mat"]).2 = [] :=
  process_sentence_exhausted (fun _ => QueryOutcome.pageBlocks "" [])
    "The cat sat on the mat" exA1
    (fun _ echoed blocks h => by
      injection h with h1 h2
      subst h1
      decide)

/-- C8: a sentence whose first query succeeds (the echoed text equals the
sentence) but whose result page holds zero result blocks produces no
`MatchRecord` — the result map is returned unchanged after a single query —
and no `ErrorEntry`: zero matches is a valid, non-error outcome. -/
theorem process_sentence_zero_blocks (schedule : Nat → QueryOutcome)
    (sentence : String) (data : JVal)
    (h0 : schedule 0 = QueryOutcome.pageBlocks sentence []) :
    process_sentence schedule sentence data = (data, 1) ∧
    (sentenceLoop (fun _ => schedule) [sentence]).2 = [] := by
  constructor
  · unfold process_sentence max_attempts searchLoop
    rw [h0]
    simp
  · exact sentenceLoop_errors (fun _ => schedule) [sentence]

/-- Witness for C8: a concrete zero-block success leaves the concrete map
`exA1` untouched after one query and records no errors. -/
theorem process_sentence_zero_blocks_witness :
    process_sentence
        (fun _ => QueryOutcome.pageBlocks "The cat sat on the mat" [])
        "The cat sat on the mat" exA1 = (exA1, 1) ∧
    (sentenceLoop
        (fun _ _ => QueryOutcome.pageBlocks "The cat sat on the mat" [])
        ["The cat sat on the mat"]).2 = [] :=
  process_sentence_zero_blocks
    (fun _ => QueryOutcome.pageBlocks "The cat sat on the mat" [])
    "The cat sat on the mat" exA1 rfl

/-- The extraction stub for the C2 scenario: `good.pdf` yields one
sentence; `corrupt.pdf` raises (the extractor cannot open the file). -/
def exExtract : String → Except String (List String) :=
  fun p => if p = "good.pdf" then Except.ok ["The cat sat on the mat"]
           else Except.error "cannot open corrupt.pdf"

/-- The query stub for the C2 scenario: every query echoes its sentence and
returns one parseable result block. -/
def exSchedule : String → Nat → QueryOutcome :=
  fun s _ => QueryOutcome.pageBlocks s
    [⟨some ["중3 동아", "Lesson 1", "1"], some "The cat sat on the mat."⟩]

/-- C2 (demonstrating the code bug): processing `good.pdf` alone yields a
nonempty partial result, yet the run over `[good.pdf, corrupt.pdf]` aborts
with the extraction exception of `corrupt.pdf` — `extract_sentences_from_pdf`
is called outside any `try` in `process_pdf`, `Pool.map` re-raises in
`process_all_pdfs`, no whole-document `ErrorEntry` is recorded, and the
already-collected partial of `good.pdf` is never merged into a final
aggregate: the run produces neither result map nor error log. -/
theorem process_all_pdfs_aborts_on_extraction_failure :
    process_pdf exExtract exSchedule "good.pdf" =
      Except.ok (JVal.cons "중3 동아" (JVal.cons "Lesson 1"
        (JVal.cons "1" (JVal.str "The cat sat on the mat.") JVal.nil)
        JVal.nil) JVal.nil, []) ∧
    process_all_pdfs exExtract exSchedule ["good.pdf", "corrupt.pdf"] =
      Except.error "cannot open corrupt.pdf" :=
  ⟨rfl, rfl⟩

end Crawl
